import Mathlib

/-!
Verification of the gear middleware framework (github.com/mkch/gear).

The middleware execution engine (`mwExec` in middleware.go) is embedded as a
fuel-indexed interpreter over an explicit request state.  A middleware's
interaction with the engine is modelled as a behaviour: a list of primitive
actions (emit observable work, call `Stop()`, call the continuation `next`,
panic), or one of the two structured middlewares whose `Serve` methods are
part of the source (`PathInterceptor`, `panicRecovery`).  The terminal
handler is modelled as an opaque collaborator that may run normally or
panic.  Machine behaviour (logging, response writes) is recorded in an
event trace.
-/

/-- Observable events during one request: generic middleware work,
the terminal handler running, an error-level log record written by the
panic-recovery middleware (`value` attribute, optional `stack` attribute),
a response-status write `g.Code(c)` (http.Error), and an instrumentation
marker used only to count continuation invocations. -/
inductive Event where
  | tag : Nat → Event
  | handlerRun : Event
  | logPanic : Nat → Bool → Event
  | code : Nat → Event
  | mark : Event
deriving Repr, DecidableEq

/-- Primitive actions a function middleware can take inside its `Serve`:
do observable work, call `g.Stop()`, invoke the continuation `next(g)`,
or panic with a value. -/
inductive MwAction where
  | emit : Nat → MwAction
  | stop : MwAction
  | callNext : MwAction
  | doPanic : Nat → MwAction
deriving Repr, DecidableEq

/-- A middleware: either an arbitrary function middleware described by its
actions, a `PathInterceptor` (prefix, prefix-with-slash, wrapped middleware;
gear.go `PathInterceptor`), or the panic-recovery middleware of
middleware.go with its `addStack` flag. -/
inductive Mw where
  | acts : List MwAction → Mw
  | pathInterceptor : String → String → Mw → Mw
  | panicRecovery : Bool → Mw
deriving Repr, DecidableEq

/-- Request-processing state: the request URL path (`g.R.URL.Path`), the
`stopped` flag of the `Gear`, the cursor `i` of the `mwExec` (the value of
a Go `int`, a 64-bit signed integer; the source decrements it below zero,
and the wraparound of that decrement is modelled in `step64`), and the
trace of observable events (log records and response writes, in order). -/
structure St where
  path : String
  stopped : Bool
  i : Int
  trace : List Event
deriving Repr, DecidableEq

/-- `Gear.Stop`: sets the stopped flag (gear.go: `g.stopped = true`). -/
def Stop (s : St) : St := { s with stopped := true }

/-- Append an observable event to the trace. -/
def pushEvent (e : Event) (s : St) : St := { s with trace := s.trace ++ [e] }

/-- `Gear.Code(c)`: writes status code `c` and its status text via
`http.Error` (gear.go `Code`). -/
def Code (c : Nat) (s : St) : St := pushEvent (.code c) s

/-- Result of running a piece of the chain: normal return, unwinding with a
panic value, an out-of-range slice access (which the engine never
recovers), or fuel exhaustion of the interpreter. -/
inductive Outcome where
  | ok : St → Outcome
  | panicked : St → Nat → Outcome
  | oob : Outcome
  | fuelOut : Outcome
deriving Repr, DecidableEq

/-- Behaviour of the opaque terminal handler: `none` means it serves the
request normally; `some v` means it panics with value `v` after being
invoked.  Invoking `m.handler.ServeHTTP(g.W, g.R)` records a
`handlerRun` event. -/
def runHandler (hb : Option Nat) (s : St) : Outcome :=
  match hb with
  | none => .ok (pushEvent .handlerRun s)
  | some v => .panicked (pushEvent .handlerRun s) v

/-- The trace of a normal outcome (used to state ordering claims). -/
def Outcome.traceOf : Outcome → Option (List Event)
  | .ok s => some s.trace
  | _ => none

/-- Whether the outcome is an unrecovered panic reaching the caller. -/
def Outcome.isPanicked : Outcome → Bool
  | .panicked _ _ => true
  | _ => false

/-- Go `strings.HasPrefix(s, p)`: the characters of `p` lead those of
`s` (phrased over the character lists so that it evaluates). -/
def strHasPre (p s : String) : Bool := p.data.isPrefixOf s.data

/-- The prefix test of `PathInterceptor.Serve` (gear.go):
`g.R.URL.Path == m.prefix || strings.HasPrefix(g.R.URL.Path, m.prefixSlash)`. -/
def pathMatch (p pre preSlash : String) : Bool :=
  p == pre || strHasPre preSlash p

/-- `mws[i]` as in Go: defined only for `0 <= i < len(mws)`. -/
def idxGet (mws : List Mw) (i : Int) : Option Mw :=
  if i < 0 then none else mws.get? i.toNat

/-- The pieces of code a single chain step can be in: a middleware's
`Serve(g, next)` call, the body of a function middleware (its remaining
actions), the continuation closure built by `serveMiddlewares`, or
`serveMiddlewares` itself. -/
inductive Callee where
  | mw : Mw → Callee
  | acts : List MwAction → Callee
  | next : Callee
  | smw : Callee
deriving Repr, DecidableEq

/-- Fuel-indexed interpreter of `mwExec.serveMiddlewares` (middleware.go)
and of the middleware `Serve` methods, for a fixed handler behaviour `hb`
and middleware list `mws`.

`.smw`: `serveMiddlewares` looks up `m.middlewares[m.i]` and invokes its
`Serve` with the continuation.

`.next`: the continuation closure: if `g.stopped` return; `m.i--`; if
`m.i >= 0` recurse into `serveMiddlewares`, else invoke the wrapped
handler.

`.mw`/`.acts`: the middleware `Serve` bodies.  `panicRecovery.Serve`
(middleware.go) defers a recover: on a panic from `next(g)` it logs one
error record with the panic value (and the stack when `addStack`), writes
a 500 response and calls `g.Stop()`.  `PathInterceptor.Serve` (gear.go)
delegates to the wrapped middleware when the path matches and then calls
`next(g)` unconditionally.

Fuel only bounds the interpreter's recursion depth; `.fuelOut` is never
produced when the fuel is large enough.

The cursor decrement in this interpreter is over the unbounded `Int`;
`step64` below performs it with the Go `int`'s 64-bit wraparound.  The
two agree on every run whose cursor stays above MinInt64 — every run in
this file except the cursor-overflow counterexample. -/
def step (hb : Option Nat) (mws : List Mw) : Nat → Callee → St → Outcome
  | 0, _, _ => .fuelOut
  | fuel+1, .smw, s =>
    match idxGet mws s.i with
    | none => .oob
    | some m => step hb mws fuel (.mw m) s
  | fuel+1, .next, s =>
    if s.stopped then .ok s
    else
      let s' : St := { s with i := s.i - 1 }
      if 0 ≤ s'.i then step hb mws fuel .smw s'
      else runHandler hb s'
  | fuel+1, .mw (.acts l), s => step hb mws fuel (.acts l) s
  | fuel+1, .mw (.pathInterceptor pre preSlash inner), s =>
    if pathMatch s.path pre preSlash then
      match step hb mws fuel (.mw inner) s with
      | .ok s' => step hb mws fuel .next s'
      | o => o
    else step hb mws fuel .next s
  | fuel+1, .mw (.panicRecovery addStack), s =>
    match step hb mws fuel .next s with
    | .panicked s' v => .ok (Stop (Code 500 (pushEvent (.logPanic v addStack) s')))
    | o => o
  | _+1, .acts [], s => .ok s
  | fuel+1, .acts (.emit t :: rest), s => step hb mws fuel (.acts rest) (pushEvent (.tag t) s)
  | fuel+1, .acts (.stop :: rest), s => step hb mws fuel (.acts rest) (Stop s)
  | _+1, .acts (.doPanic v :: _), s => .panicked s v
  | fuel+1, .acts (.callNext :: rest), s =>
    match step hb mws fuel .next s with
    | .ok s' => step hb mws fuel (.acts rest) s'
    | o => o

/-- `newMwExec`: the cursor starts at `len(middlewares) - 1` when the list
is non-empty (and is irrelevant, zero here, when it is empty). -/
def newMwExecI (mws : List Mw) : Int :=
  if 0 < mws.length then (mws.length : Int) - 1 else 0

/-- `mwExec.exec` (middleware.go): return at once if the context is
already stopped; with no middlewares invoke the wrapped handler directly;
otherwise start `serveMiddlewares`. -/
def exec (hb : Option Nat) (mws : List Mw) (fuel : Nat) (s : St) : Outcome :=
  if s.stopped then .ok s
  else if mws.isEmpty then runHandler hb s
  else step hb mws fuel .smw s

/-- The fresh per-request state built by `Wrap` (gear.go) together with
`newMwExec`: a fresh `Gear` (not stopped, empty trace) and the initial
cursor. -/
def initSt (path : String) (mws : List Mw) : St :=
  { path := path, stopped := false, i := newMwExecI mws, trace := [] }

/-- The request-handling closure returned by `Wrap` (gear.go): when the
request already carries a `Gear` (`getGear(r) != nil`) that context is
reused as-is; otherwise a fresh `Gear` is attached.  Either way a fresh
`mwExec` is built (fresh cursor) and `exec` runs. -/
def wrapHandle (hb : Option Nat) (mws : List Mw) (fuel : Nat)
    (existing : Option St) (path : String) : Outcome :=
  match existing with
  | some g0 => exec hb mws fuel { g0 with i := newMwExecI mws }
  | none => exec hb mws fuel (initSt path mws)


/-! ### The standard wrap-style chain used by the reverse-order claim -/

/-- The wrap-style middleware `m_k`: does its "before next()" work, calls
the continuation exactly once, then does its "after next()" work.  The
before work of `m_k` is event `tag (2*k)`, the after work `tag (2*k+1)`. -/
def wrapMw (k : Nat) : Mw := .acts [.emit (2*k), .callNext, .emit (2*k+1)]

/-- The insertion-ordered list `[m_0, ..., m_(n-1)]` of wrap-style
middlewares. -/
def wrapChain (n : Nat) : List Mw := (List.range n).map wrapMw

/-- Before-work events in the order `m_(n-1), ..., m_0`. -/
def beforeTrace (n : Nat) : List Event :=
  (List.range n).reverse.map (fun k => .tag (2*k))

/-- After-work events in the order `m_0, ..., m_(n-1)`. -/
def afterTrace (n : Nat) : List Event :=
  (List.range n).map (fun k => .tag (2*k+1))

/-- The full observable trace the reverse-order claim predicts. -/
def c1Expected (n : Nat) : List Event :=
  beforeTrace n ++ [.handlerRun] ++ afterTrace n

/-! ### PathInterceptor.Serve against an arbitrary continuation

`Serve` methods receive the continuation as an argument, so
`PathInterceptor.Serve` is also modelled directly over an arbitrary
continuation `nextF`, which lets its continuation-invocation count be
stated.  The interpretation of the primitive actions is the same as in
`step`. -/

/-- The body of a function middleware run against an arbitrary
continuation `nextF`; returns the final state and the panic value if the
body panicked. -/
def serveActsWith (nextF : St → St) : List MwAction → St → St × Option Nat
  | [], s => (s, none)
  | .emit t :: rest, s => serveActsWith nextF rest (pushEvent (.tag t) s)
  | .stop :: rest, s => serveActsWith nextF rest (Stop s)
  | .doPanic v :: _, s => (s, some v)
  | .callNext :: rest, s => serveActsWith nextF rest (nextF s)

/-- `PathInterceptor.Serve` (gear.go): when the request path matches the
prefix, delegate to the wrapped middleware's `Serve` with the same
continuation; then call the continuation unconditionally (a panic from the
wrapped middleware propagates and skips that trailing call). -/
def piServe (pre preSlash : String) (inner : List MwAction)
    (nextF : St → St) (s : St) : St × Option Nat :=
  if pathMatch s.path pre preSlash then
    match serveActsWith nextF inner s with
    | (s1, none) => (nextF s1, none)
    | (s1, some v) => (s1, some v)
  else (nextF s, none)

/-- Instrumented continuation that records one `mark` event per
invocation. -/
def markNext (s : St) : St := pushEvent .mark s

/-- Number of `mark` events in a trace. -/
def countMark (l : List Event) : Nat :=
  (l.filter (fun e => e == Event.mark)).length

/-- Number of continuation calls a function middleware body performs
(its `callNext` actions before any panic). -/
def nextCallsRun : List MwAction → Nat
  | [] => 0
  | .callNext :: rest => nextCallsRun rest + 1
  | .doPanic _ :: _ => 0
  | _ :: rest => nextCallsRun rest

/-- Whether a function middleware body panics. -/
def actsPanic : List MwAction → Bool
  | [] => false
  | .doPanic _ :: _ => true
  | _ :: rest => actsPanic rest

/-! ### The must-decode family (gear.go, `mustDecode` and its wrappers)

The structured-decoding collaborator (package encoding) is external: a
decoder is an opaque function from the request state to a possibly-updated
state and an optional error (error values are opaque, numbered). -/

/-- A decode call `f(g, v)`: the destination value is opaque, so a decoder
is a state transformer returning an optional error. -/
def Decoder : Type := St → St × Option Nat

/-- `mustDecode(g, f, v)` (gear.go): call the decoder; on error, write a
400 Bad Request response (`g.Code(http.StatusBadRequest)`), call
`g.Stop()`, and return the error; on success return nil. -/
def mustDecode (s : St) (f : Decoder) : St × Option Nat :=
  match f s with
  | (s', some e) => (Stop (Code 400 s'), some e)
  | (s', none) => (s', none)

/-- `Gear.MustDecodeBody`: `mustDecode` applied to the body decoder. -/
def MustDecodeBody (dec : Decoder) (s : St) : St × Option Nat := mustDecode s dec

/-- `Gear.MustDecodeForm`: `mustDecode` applied to the form decoder. -/
def MustDecodeForm (dec : Decoder) (s : St) : St × Option Nat := mustDecode s dec

/-- `Gear.MustDecodeHeader`: `mustDecode` applied to the header decoder. -/
def MustDecodeHeader (dec : Decoder) (s : St) : St × Option Nat := mustDecode s dec

/-- `Gear.MustDecodeQuery`: `mustDecode` applied to the query decoder. -/
def MustDecodeQuery (dec : Decoder) (s : St) : St × Option Nat := mustDecode s dec

/-! ### The access-logger middleware (middleware.go, `Logger`) -/

/-- A structured log attribute: a string attribute, a string-slice
attribute (`slog.Any(key, header[key])` with a `[]string` value), or a
group. -/
inductive Attr where
  | str : String → String → Attr
  | strs : String → List String → Attr
  | group : String → List Attr → Attr
deriving Repr

/-- The parts of an `http.Request` the logger reads: method, host, the
URL (rendered as it logs), and the header map `map[string][]string`. -/
structure Request where
  method : String
  host : String
  url : String
  header : List (String × List String)
deriving Repr, DecidableEq

/-- `LoggerOptions` (middleware.go): `Keys` is a `map[string]bool` whose
zero value (`none`) means all logger keys; `HeaderKeys` is the header-key
list (a nil and an empty slice behave identically here); `Attrs`, when
set, overrides everything. -/
structure LoggerOptions where
  keys : Option (List (String × Bool))
  headerKeys : List String
  attrs : Option (Request → List Attr)

/-- Lookup in a `map[string]bool`: absent keys read as `false`. -/
def lookupB (m : List (String × Bool)) (k : String) : Bool :=
  ((m.find? (fun p => p.1 == k)).map Prod.snd).getD false

/-- Lookup in the header map: absent keys read as the nil slice. -/
def headerGet (h : List (String × List String)) (k : String) : List String :=
  ((h.find? (fun p => p.1 == k)).map Prod.snd).getD []

/-- The logger attribute keys (middleware.go constants). -/
def LoggerMethodKey : String := "method"

/-- Host key. -/
def LoggerHostKey : String := "host"

/-- URL key. -/
def LoggerURLKey : String := "URL"

/-- Header group key. -/
def LoggerHeaderKey : String := "header"

/-- Whether a logger key is enabled: `true` by default; when `opt` and
`opt.Keys` are non-nil, read from the map (middleware.go `Logger`,
default-values block). -/
def loggerKeyOn (opt : Option LoggerOptions) (key : String) : Bool :=
  match opt with
  | none => true
  | some o =>
    match o.keys with
    | none => true
    | some ks => lookupB ks key

/-- The header keys to log: nil unless `opt` is non-nil, the header group
is enabled and `opt.HeaderKeys` is set (middleware.go `Logger`). -/
def loggerHeaderKeys (opt : Option LoggerOptions) : List String :=
  match opt with
  | none => []
  | some o => if loggerKeyOn opt LoggerHeaderKey then o.headerKeys else []

/-- The attribute list the logger emits (middleware.go `Logger`): when
`opt.Attrs` is set it takes precedence; otherwise method, host and URL
attributes as enabled, then the header group when any header key is
requested. -/
def loggerAttrs (opt : Option LoggerOptions) (r : Request) : List Attr :=
  match opt with
  | some o =>
    match o.attrs with
    | some f => f r
    | none => loggerDefaultAttrs opt r
  | none => loggerDefaultAttrs opt r
where
  loggerDefaultAttrs (opt : Option LoggerOptions) (r : Request) : List Attr :=
    let hk := loggerHeaderKeys opt
    (if loggerKeyOn opt LoggerMethodKey then [Attr.str LoggerMethodKey r.method] else []) ++
    (if loggerKeyOn opt LoggerHostKey then [Attr.str LoggerHostKey r.host] else []) ++
    (if loggerKeyOn opt LoggerURLKey then [Attr.str LoggerURLKey r.url] else []) ++
    (if 0 < hk.length then
      [Attr.group LoggerHeaderKey (hk.map (fun k => Attr.strs k (headerGet r.header k)))]
    else [])

/-- One structured log record: level, message, attributes. -/
structure LogRecord where
  level : String
  msg : String
  attrs : List Attr
deriving Repr

/-- State seen by the logger middleware: the request and the log sink
contents. -/
structure GearR where
  req : Request
  logs : List LogRecord
deriving Repr

/-- The `Serve` body of the logger middleware (middleware.go `Logger`):
compute the attributes, synchronously emit exactly one INFO-level record
with message "HTTP", then invoke the continuation. -/
def loggerServe (opt : Option LoggerOptions) (g : GearR) (nextF : GearR → GearR) : GearR :=
  nextF { g with logs := g.logs ++ [⟨"INFO", "HTTP", loggerAttrs opt g.req⟩] }

/-! ### The engine with the 64-bit cursor

The cursor `mwExec.i` in the source is a Go `int`: a 64-bit two's
complement integer whose decrement wraps from MinInt64 to MaxInt64 (the
Go spec defines signed overflow as wraparound).  `step` above idealises
the cursor as an unbounded integer; the two interpreters agree on every
run whose cursor never goes below MinInt64 — which covers all runs in the
other claims — but not on a run with more than 2^63 continuation calls.
`step64` is the same interpreter with the wraparound modelled. -/

/-- Two's-complement wraparound of a 64-bit signed integer:
`(x + 2^63) % 2^64 - 2^63`, mapping any integer into
`[-9223372036854775808, 9223372036854775807]`. -/
def wrap64 (x : Int) : Int :=
  (x + 9223372036854775808) % 18446744073709551616 - 9223372036854775808

/-- `mwExec.serveMiddlewares` and the middleware `Serve` bodies exactly
as in `step`, with the continuation's cursor decrement `m.i--` performed
on a wrapping 64-bit integer as in Go. -/
def step64 (hb : Option Nat) (mws : List Mw) : Nat → Callee → St → Outcome
  | 0, _, _ => .fuelOut
  | fuel+1, .smw, s =>
    match idxGet mws s.i with
    | none => .oob
    | some m => step64 hb mws fuel (.mw m) s
  | fuel+1, .next, s =>
    if s.stopped then .ok s
    else
      let s' : St := { s with i := wrap64 (s.i - 1) }
      if 0 ≤ s'.i then step64 hb mws fuel .smw s'
      else runHandler hb s'
  | fuel+1, .mw (.acts l), s => step64 hb mws fuel (.acts l) s
  | fuel+1, .mw (.pathInterceptor pre preSlash inner), s =>
    if pathMatch s.path pre preSlash then
      match step64 hb mws fuel (.mw inner) s with
      | .ok s' => step64 hb mws fuel .next s'
      | o => o
    else step64 hb mws fuel .next s
  | fuel+1, .mw (.panicRecovery addStack), s =>
    match step64 hb mws fuel .next s with
    | .panicked s' v => .ok (Stop (Code 500 (pushEvent (.logPanic v addStack) s')))
    | o => o
  | _+1, .acts [], s => .ok s
  | fuel+1, .acts (.emit t :: rest), s => step64 hb mws fuel (.acts rest) (pushEvent (.tag t) s)
  | fuel+1, .acts (.stop :: rest), s => step64 hb mws fuel (.acts rest) (Stop s)
  | _+1, .acts (.doPanic v :: _), s => .panicked s v
  | fuel+1, .acts (.callNext :: rest), s =>
    match step64 hb mws fuel .next s with
    | .ok s' => step64 hb mws fuel (.acts rest) s'
    | o => o

/-- `mwExec.exec` over the 64-bit-cursor interpreter. -/
def exec64 (hb : Option Nat) (mws : List Mw) (fuel : Nat) (s : St) : Outcome :=
  if s.stopped then .ok s
  else if mws.isEmpty then runHandler hb s
  else step64 hb mws fuel .smw s

/-- Number of `callNext` actions in a function middleware body: an upper
bound on the continuation calls the body can make. -/
def countNexts : List MwAction → Nat
  | [] => 0
  | .callNext :: rest => countNexts rest + 1
  | _ :: rest => countNexts rest

/-- Upper bound on the continuation calls one middleware's `Serve` can
make: its body's `callNext` count for a function middleware; a
`PathInterceptor` adds one unconditional trailing call to its wrapped
middleware's; `panicRecovery` calls the continuation once. -/
def totalNexts : Mw → Nat
  | .acts l => countNexts l
  | .pathInterceptor _ _ inner => totalNexts inner + 1
  | .panicRecovery _ => 1

/-- Total continuation-call budget of a chain. -/
def sumNexts (mws : List Mw) : Nat := (mws.map totalNexts).sum

/-- Continuation-call budget of the chain positions at cursor `i` and
below: the middlewares that can still be entered as the cursor descends. -/
def preNexts (mws : List Mw) (i : Int) : Nat :=
  if i < 0 then 0 else ((mws.map totalNexts).take (i.toNat + 1)).sum

/-- Lower bound on the potential `i - preNexts (i - 1)` of any state
reachable from state `s` inside callee `c`: the cursor can only fall by
consuming continuation-call budget of the code still to run. -/
def wrapLow (mws : List Mw) : Callee → St → Int
  | .smw, s => s.i - preNexts mws s.i
  | .mw m, s => s.i - preNexts mws (s.i - 1) - totalNexts m
  | .acts l, s => s.i - preNexts mws (s.i - 1) - countNexts l
  | .next, s => s.i - preNexts mws (s.i - 1) - 1

/-- Invariant on an outcome of the 64-bit interpreter: no out-of-range
access happened, the cursor of a resulting state is at most `hi`, and its
potential is at least `lo`. -/
def wOut (mws : List Mw) (lo hi : Int) : Outcome → Prop
  | .ok s => lo ≤ s.i - preNexts mws (s.i - 1) ∧ s.i ≤ hi
  | .panicked s _ => lo ≤ s.i - preNexts mws (s.i - 1) ∧ s.i ≤ hi
  | .oob => False
  | .fuelOut => True

/-- A single middleware that calls its continuation `2^63 + 1` times:
enough cursor decrements to wrap the 64-bit cursor past MinInt64. -/
def overflowChain : List Mw :=
  [.acts (List.replicate (2^63) .callNext ++ [.callNext])]

/-! ### Interpreter lemmas -/

/-- Fuel is only an interpreter device: any result other than fuel
exhaustion is stable under more fuel. -/
theorem step_mono (hb : Option Nat) (mws : List Mw) :
    ∀ fuel fuel' c s, fuel ≤ fuel' →
      step hb mws fuel c s ≠ Outcome.fuelOut →
      step hb mws fuel' c s = step hb mws fuel c s := by
  intro fuel
  induction fuel with
  | zero =>
    intro fuel' c s _ h
    exact absurd (show step hb mws 0 c s = Outcome.fuelOut by simp [step]) h
  | succ n ih =>
    intro fuel' c s hle h
    obtain ⟨m, rfl⟩ : ∃ m, fuel' = m + 1 := ⟨fuel' - 1, by omega⟩
    have hmn : n ≤ m := Nat.le_of_succ_le_succ hle
    cases c with
    | smw =>
      simp only [step] at h ⊢
      cases hidx : idxGet mws s.i with
      | none => simp [hidx]
      | some m0 =>
        simp only [hidx] at h ⊢
        exact ih m (.mw m0) s hmn h
    | next =>
      simp only [step] at h ⊢
      by_cases hst : s.stopped
      · simp [hst]
      · simp only [hst, if_false] at h ⊢
        by_cases hge : 0 ≤ s.i - 1
        · simp only [hge, if_true] at h ⊢
          exact ih m .smw _ hmn h
        · simp [hge]
    | mw m0 =>
      cases m0 with
      | acts l =>
        simp only [step] at h ⊢
        exact ih m (.acts l) s hmn h
      | pathInterceptor pre preSlash inner =>
        simp only [step] at h ⊢
        by_cases hp : pathMatch s.path pre preSlash
        · simp only [hp, if_true] at h ⊢
          cases hin : step hb mws n (.mw inner) s with
          | fuelOut => rw [hin] at h; simp at h
          | ok s' =>
            rw [ih m (.mw inner) s hmn (by simp [hin]), hin]
            rw [hin] at h
            exact ih m .next s' hmn h
          | panicked s' v =>
            rw [ih m (.mw inner) s hmn (by simp [hin]), hin]
          | oob =>
            rw [ih m (.mw inner) s hmn (by simp [hin]), hin]
        · simp only [hp, if_false] at h ⊢
          exact ih m .next s hmn h
      | panicRecovery addStack =>
        simp only [step] at h ⊢
        cases hin : step hb mws n .next s with
        | fuelOut => rw [hin] at h; simp at h
        | ok s' => rw [ih m .next s hmn (by simp [hin]), hin]
        | panicked s' v => rw [ih m .next s hmn (by simp [hin]), hin]
        | oob => rw [ih m .next s hmn (by simp [hin]), hin]
    | acts l =>
      cases l with
      | nil => simp [step]
      | cons a rest =>
        cases a with
        | emit t =>
          simp only [step] at h ⊢
          exact ih m (.acts rest) _ hmn h
        | stop =>
          simp only [step] at h ⊢
          exact ih m (.acts rest) _ hmn h
        | doPanic v => simp [step]
        | callNext =>
          simp only [step] at h ⊢
          cases hin : step hb mws n .next s with
          | fuelOut => rw [hin] at h; simp at h
          | ok s' =>
            rw [ih m .next s hmn (by simp [hin]), hin]
            rw [hin] at h
            exact ih m (.acts rest) s' hmn h
          | panicked s' v =>
            rw [ih m .next s hmn (by simp [hin]), hin]
          | oob =>
            rw [ih m .next s hmn (by simp [hin]), hin]

/-- With `0 <= i < len(mws)`, the slice access succeeds. -/
theorem idxGet_isSome {mws : List Mw} {i : Int} (h0 : 0 ≤ i)
    (h1 : i < (mws.length : Int)) : ∃ m0, idxGet mws i = some m0 := by
  have hlt : i.toNat < mws.length := by omega
  exact ⟨mws.get ⟨i.toNat, hlt⟩, by simp [idxGet, not_lt.mpr h0, List.get?_eq_get hlt]⟩

/-- Unfolding of the before-work trace. -/
theorem beforeTrace_succ (j : Nat) :
    beforeTrace (j+1) = Event.tag (2*j) :: beforeTrace j := by
  simp [beforeTrace, List.range_succ]

/-- Unfolding of the after-work trace. -/
theorem afterTrace_succ (j : Nat) :
    afterTrace (j+1) = afterTrace j ++ [Event.tag (2*j+1)] := by
  simp [afterTrace, List.range_succ]

/-- The chain access at cursor `j` yields middleware `m_j`. -/
theorem idxGet_wrapChain {n j : Nat} (h : j < n) :
    idxGet (wrapChain n) ((j : Nat) : Int) = some (wrapMw j) := by
  simp only [idxGet, wrapChain]
  rw [if_neg (by omega : ¬ ((j : Nat) : Int) < 0)]
  rw [List.get?_eq_getElem?, Int.toNat_natCast, List.getElem?_map, List.getElem?_range h]
  rfl

/-- Running the standard wrap-style chain from cursor `j` produces the
before-work of `m_j, ..., m_0`, the handler, then the after-work of
`m_0, ..., m_j`, and leaves the cursor exhausted. -/
theorem wrapChain_smw_ok (n : Nat) :
    ∀ j, ∀ s : St, ∀ fuel, j < n → s.stopped = false → s.i = (j : Int) →
      5*j+6 ≤ fuel →
      step none (wrapChain n) fuel .smw s =
        .ok ⟨s.path, false, -1,
          s.trace ++ (beforeTrace (j+1) ++ [Event.handlerRun] ++ afterTrace (j+1))⟩ := by
  intro j
  induction j with
  | zero =>
    rintro ⟨p, st0, si0, tr0⟩ fuel hj hst hi hf
    obtain rfl : st0 = false := hst
    obtain rfl : si0 = ((0 : Nat) : Int) := hi
    obtain ⟨f1, rfl⟩ : ∃ f1, fuel = f1 + 1 := ⟨fuel - 1, by omega⟩
    obtain ⟨f2, rfl⟩ : ∃ f2, f1 = f2 + 1 := ⟨f1 - 1, by omega⟩
    obtain ⟨f3, rfl⟩ : ∃ f3, f2 = f3 + 1 := ⟨f2 - 1, by omega⟩
    obtain ⟨f4, rfl⟩ : ∃ f4, f3 = f4 + 1 := ⟨f3 - 1, by omega⟩
    obtain ⟨f5, rfl⟩ : ∃ f5, f4 = f5 + 1 := ⟨f4 - 1, by omega⟩
    obtain ⟨f6, rfl⟩ : ∃ f6, f5 = f6 + 1 := ⟨f5 - 1, by omega⟩
    have h0 : idxGet (wrapChain n) 0 = some (wrapMw 0) := by
      simpa using idxGet_wrapChain hj
    have hb1 : beforeTrace 1 = [Event.tag 0] := by decide
    have ha1 : afterTrace 1 = [Event.tag 1] := by decide
    simp [step, h0, wrapMw, pushEvent, runHandler, hb1, ha1]
  | succ j ih =>
    rintro ⟨p, st0, si0, tr0⟩ fuel hj hst hi hf
    obtain rfl : st0 = false := hst
    obtain rfl : si0 = ((j+1 : Nat) : Int) := hi
    obtain ⟨f1, rfl⟩ : ∃ f1, fuel = f1 + 1 := ⟨fuel - 1, by omega⟩
    obtain ⟨f2, rfl⟩ : ∃ f2, f1 = f2 + 1 := ⟨f1 - 1, by omega⟩
    obtain ⟨f3, rfl⟩ : ∃ f3, f2 = f3 + 1 := ⟨f2 - 1, by omega⟩
    obtain ⟨f4, rfl⟩ : ∃ f4, f3 = f4 + 1 := ⟨f3 - 1, by omega⟩
    obtain ⟨f5, rfl⟩ : ∃ f5, f4 = f5 + 1 := ⟨f4 - 1, by omega⟩
    have hih := ih ⟨p, false, ((j+1 : Nat) : Int) - 1, tr0 ++ [Event.tag (2*(j+1))]⟩
      f5 (by omega) rfl (by push_cast; omega) (by omega)
    simp only [step, idxGet_wrapChain hj, wrapMw, pushEvent, Bool.false_eq_true,
      if_false]
    rw [if_pos (show (0:Int) ≤ ((j+1 : Nat) : Int) - 1 by push_cast; omega)]
    rw [hih]
    obtain ⟨f6, rfl⟩ : ∃ f6, f5 = f6 + 1 := ⟨f5 - 1, by omega⟩
    simp [step, pushEvent, beforeTrace_succ, afterTrace_succ]

/-- Claim C1: for every list of `n` wrap-style middlewares `[m_0, ...,
m_(n-1)]` run by `exec` with a terminal handler, each calling its
continuation exactly once and never stopping, the observable trace is the
before-work of `m_(n-1), ..., m_0`, then the handler, then the after-work
of `m_0, ..., m_(n-1)` — execution order is the reverse of insertion
order, driven by the cursor initialised to `len-1` and decremented per
continuation call. -/
theorem c1_reverse_order (path : String) (n : Nat) :
    (exec none (wrapChain n) (5*n+6) (initSt path (wrapChain n))).traceOf =
      some (c1Expected n) := by
  cases n with
  | zero =>
    simp [exec, wrapChain, initSt, runHandler, c1Expected, beforeTrace, afterTrace,
      Outcome.traceOf, pushEvent]
  | succ j =>
    have hi : (initSt path (wrapChain (j+1))).i = ((j : Nat) : Int) := by
      simp [initSt, newMwExecI, wrapChain]
    have h := wrapChain_smw_ok (j+1) j (initSt path (wrapChain (j+1))) (5*(j+1)+6)
      (by omega) rfl hi (by omega)
    have hne : (wrapChain (j+1)).isEmpty = false := by simp [wrapChain]
    rw [show exec none (wrapChain (j+1)) (5*(j+1)+6) (initSt path (wrapChain (j+1))) =
      step none (wrapChain (j+1)) (5*(j+1)+6) .smw (initSt path (wrapChain (j+1))) from by
        simp [exec, initSt, hne]]
    rw [h]
    simp [Outcome.traceOf, initSt, c1Expected]

/-- Claim C2: `Stop` is checked cooperatively at `exec` entry and at the
top of the continuation: a stopped continuation returns immediately with
the state unchanged (no cursor decrement, no downstream middleware, no
terminal handler); a stopped context at `exec` entry runs nothing; and a
middleware that calls `Stop()` and then `next()` continues its own
remaining code with nothing advanced. -/
theorem c2_stop_cooperative (hb : Option Nat) (mws : List Mw) (fuel : Nat)
    (s : St) (rest : List MwAction) :
    (s.stopped = true → step hb mws (fuel+1) .next s = .ok s) ∧
    (s.stopped = true → exec hb mws fuel s = .ok s) ∧
    step hb mws (fuel+3) (.acts (.stop :: .callNext :: rest)) s =
      step hb mws (fuel+1) (.acts rest) (Stop s) := by
  refine ⟨fun h => by simp [step, h], fun h => by simp [exec, h], ?_⟩
  simp [step, Stop]

/-- Witness for C2 at a concrete stopped state. -/
theorem c2_stop_cooperative_witness :
    step none [] 1 .next ⟨"/", true, 0, []⟩ = .ok ⟨"/", true, 0, []⟩ ∧
    exec none [] 0 ⟨"/", true, 0, []⟩ = .ok ⟨"/", true, 0, []⟩ := by
  have h := c2_stop_cooperative none [] 0 ⟨"/", true, 0, []⟩ []
  exact ⟨h.1 rfl, h.2.1 rfl⟩

/-- Claim C5: with zero middlewares (and the context not stopped), `exec`
invokes the terminal handler directly, with no middleware machinery in
between, and returns. -/
theorem c5_empty_chain (hb : Option Nat) (fuel : Nat) (s : St)
    (h : s.stopped = false) :
    exec hb [] fuel s = runHandler hb s ∧
    exec none [] fuel s = .ok (pushEvent .handlerRun s) := by
  constructor
  · simp [exec, h]
  · simp [exec, h, runHandler]

/-- Witness for C5 at a concrete unstopped state. -/
theorem c5_empty_chain_witness :
    exec none [] 0 ⟨"/", false, 0, []⟩ = runHandler none ⟨"/", false, 0, []⟩ ∧
    exec none [] 0 ⟨"/", false, 0, []⟩ =
      .ok (pushEvent .handlerRun ⟨"/", false, 0, []⟩) :=
  c5_empty_chain none 0 ⟨"/", false, 0, []⟩ rfl

/-- Claim C8: `Stop()` sets the stopped flag and changes nothing else
(path, cursor and trace are untouched), it is idempotent, and it never
unwinds the call in progress: the remaining code of the middleware that
called it still runs. -/
theorem c8_stop_only_sets_flag (s : St) :
    (Stop s).stopped = true ∧ (Stop s).path = s.path ∧ (Stop s).i = s.i ∧
    (Stop s).trace = s.trace ∧ Stop (Stop s) = Stop s ∧
    (∀ hb mws fuel rest, step hb mws (fuel+1) (.acts (.stop :: rest)) s =
      step hb mws fuel (.acts rest) (Stop s)) :=
  ⟨rfl, rfl, rfl, rfl, rfl, fun _ _ _ _ => rfl⟩

/-- Claim C3: when the panic-recovery middleware's downstream call (the
continuation: any downstream middleware or the terminal handler) panics,
its `Serve` catches the panic and does exactly three things: writes one
error-level log record with the panic value (plus the stack if `addStack`
is set), writes a 500 Internal Server Error response, and calls `Stop()`;
concretely, both for a panicking downstream middleware and for a
panicking terminal handler guarded by the recovery middleware installed
last (outermost). -/
theorem c3_panic_recovery (hb : Option Nat) (mws : List Mw) (fuel : Nat)
    (addStack : Bool) (s s' : St) (v : Nat)
    (h : step hb mws fuel .next s = .panicked s' v) :
    step hb mws (fuel+1) (.mw (.panicRecovery addStack)) s =
      .ok (Stop (Code 500 (pushEvent (.logPanic v addStack) s'))) ∧
    (∀ path w stk f,
      exec none [.acts [.doPanic w], .panicRecovery stk] (f+9)
        (initSt path [.acts [.doPanic w], .panicRecovery stk]) =
      .ok ⟨path, true, 0, [.logPanic w stk, .code 500]⟩) ∧
    (∀ path w stk f,
      exec (some w) [.panicRecovery stk] (f+9)
        (initSt path [.panicRecovery stk]) =
      .ok ⟨path, true, -1, [.handlerRun, .logPanic w stk, .code 500]⟩) := by
  refine ⟨?_, ?_, ?_⟩
  · simp only [step]
    rw [h]
  · intro path w stk f
    simp [exec, initSt, newMwExecI, step, idxGet, runHandler, pushEvent, Stop, Code]
  · intro path w stk f
    simp [exec, initSt, newMwExecI, step, idxGet, runHandler, pushEvent, Stop, Code]

/-- Mark counting distributes over append. -/
theorem countMark_append (l1 l2 : List Event) :
    countMark (l1 ++ l2) = countMark l1 + countMark l2 := by
  simp [countMark, List.filter_append]

/-- Running a middleware body against the counting continuation adds one
mark per continuation call performed, and panics iff the body has a panic
action. -/
theorem serveActsWith_markNext (l : List MwAction) : ∀ s : St,
    countMark ((serveActsWith markNext l s).1).trace =
      countMark s.trace + nextCallsRun l ∧
    ((serveActsWith markNext l s).2.isSome = actsPanic l) := by
  induction l with
  | nil => intro s; simp [serveActsWith, nextCallsRun, actsPanic]
  | cons a rest ih =>
    intro s
    cases a with
    | emit t =>
      have h := ih (pushEvent (.tag t) s)
      simpa [serveActsWith, nextCallsRun, actsPanic, pushEvent,
        countMark_append, countMark] using h
    | stop =>
      have h := ih (Stop s)
      simpa [serveActsWith, nextCallsRun, actsPanic, Stop] using h
    | doPanic v =>
      simp [serveActsWith, nextCallsRun, actsPanic]
    | callNext =>
      have h := ih (markNext s)
      have hm : countMark [Event.mark] = 1 := by decide
      simp only [serveActsWith, nextCallsRun, actsPanic]
      refine ⟨?_, by simpa [markNext, pushEvent] using h.2⟩
      have h1 := h.1
      simp [markNext, pushEvent, countMark_append, hm] at h1
      simp only [markNext, pushEvent]
      omega

/-- Claim C10: `PathInterceptor.Serve` on a matching path first delegates
to the wrapped middleware and then calls the continuation once more,
unconditionally — so a wrapped middleware that already invoked the
continuation makes it run twice for this one chain position (counted
here by marks), while a non-matching path invokes it exactly once; inside
the engine, a matching interceptor wrapping a middleware that calls
`next` once makes the terminal handler run twice (cursor advanced an
extra step to -2), while a non-matching path runs it once. -/
theorem c10_path_interceptor_extra_next (pre preSlash : String)
    (inner : List MwAction) (s : St) :
    (countMark ((piServe pre preSlash inner markNext s).1).trace =
      countMark s.trace +
        (if pathMatch s.path pre preSlash then
          nextCallsRun inner + (if actsPanic inner then 0 else 1)
        else 1)) ∧
    exec none [.pathInterceptor "/a" "/a/" (.acts [.callNext])] 20
      (initSt "/a/b" [.pathInterceptor "/a" "/a/" (.acts [.callNext])]) =
      .ok ⟨"/a/b", false, -2, [.handlerRun, .handlerRun]⟩ ∧
    exec none [.pathInterceptor "/a" "/a/" (.acts [.callNext])] 20
      (initSt "/zz" [.pathInterceptor "/a" "/a/" (.acts [.callNext])]) =
      .ok ⟨"/zz", false, -1, [.handlerRun]⟩ := by
  refine ⟨?_, by decide, by decide⟩
  have h := serveActsWith_markNext inner s
  by_cases hp : pathMatch s.path pre preSlash
  · simp only [piServe, hp, if_true]
    cases hsv : serveActsWith markNext inner s with
    | mk s1 op =>
      rw [hsv] at h
      cases op with
      | none =>
        have hpan : actsPanic inner = false := by simpa using h.2.symm
        have hm : countMark [Event.mark] = 1 := by decide
        simp [markNext, pushEvent, countMark_append, hm, h.1, hpan]
        omega
      | some v =>
        have hpan : actsPanic inner = true := by simpa using h.2.symm
        simp [h.1, hpan]
  · simp only [piServe, hp, if_false]
    have hm : countMark [Event.mark] = 1 := by decide
    simp [markNext, pushEvent, countMark_append, hm]

/-- Witness for C3: a panicking terminal handler caught by the recovery
middleware, and the full-chain scenario with a panicking downstream
middleware. -/
theorem c3_panic_recovery_witness :
    step (some 7) ([] : List Mw) 2 (.mw (.panicRecovery true)) ⟨"/", false, 0, []⟩ =
      .ok (Stop (Code 500 (pushEvent (.logPanic 7 true) ⟨"/", false, -1, [.handlerRun]⟩))) ∧
    exec none [.acts [.doPanic 3], .panicRecovery false] 9
      (initSt "/" [.acts [.doPanic 3], .panicRecovery false]) =
      .ok ⟨"/", true, 0, [.logPanic 3 false, .code 500]⟩ := by
  have h := c3_panic_recovery (some 7) [] 1 true ⟨"/", false, 0, []⟩
    ⟨"/", false, -1, [.handlerRun]⟩ 7 (by decide)
  exact ⟨h.1, h.2.1 "/" 3 false 0⟩

/-- Claim C4 counterexample: invoking the wrapped handler on a request
that already carries a Gear context does not raise a panic — the request
is processed (the terminal handler runs on the carried context). -/
theorem c4_counterexample :
    wrapHandle none [] 5 (some ⟨"/p", false, 7, [.tag 9]⟩) "/p" =
      .ok ⟨"/p", false, 0, [.tag 9, .handlerRun]⟩ ∧
    Outcome.isPanicked (wrapHandle none [] 5 (some ⟨"/p", false, 7, [.tag 9]⟩) "/p") =
      false := by
  decide

/-- Claim C4 (amended): calling the wrapped handler produced by `Wrap` on
a request that already carries a Gear context reuses that context (with a
fresh cursor) and processes the request normally instead of panicking. -/
theorem c4_wrap_reuses_existing_context (hb : Option Nat) (mws : List Mw)
    (fuel : Nat) (g0 : St) (p : String) :
    wrapHandle hb mws fuel (some g0) p =
      exec hb mws fuel { g0 with i := newMwExecI mws } ∧
    (g0.stopped = false → wrapHandle none [] fuel (some g0) p =
      .ok (pushEvent .handlerRun { g0 with i := 0 })) := by
  refine ⟨rfl, fun h => ?_⟩
  simp [wrapHandle, exec, newMwExecI, h, runHandler]

/-- Witness for the amended C4 at a concrete already-attached context. -/
theorem c4_wrap_reuses_existing_context_witness :
    wrapHandle none [] 3 (some ⟨"/p", false, 5, []⟩) "/p" =
      exec none [] 3 { (⟨"/p", false, 5, []⟩ : St) with i := newMwExecI [] } ∧
    wrapHandle none [] 3 (some ⟨"/p", false, 5, []⟩) "/p" =
      .ok (pushEvent .handlerRun ⟨"/p", false, 0, []⟩) := by
  have h := c4_wrap_reuses_existing_context none [] 3 ⟨"/p", false, 5, []⟩ "/p"
  exact ⟨h.1, h.2 rfl⟩

/-- Claim C7: the must-decode variants all share `mustDecode`: when the
underlying decode call fails they return that error, write a 400 Bad
Request response and call `Stop()`; when it succeeds they return nil,
write no response and do not stop (the state is exactly what the decoder
left). -/
theorem c7_must_decode (f : Decoder) (s : St) :
    (MustDecodeBody f s = mustDecode s f ∧ MustDecodeForm f s = mustDecode s f ∧
     MustDecodeHeader f s = mustDecode s f ∧ MustDecodeQuery f s = mustDecode s f) ∧
    (∀ s' e, f s = (s', some e) → mustDecode s f = (Stop (Code 400 s'), some e)) ∧
    (∀ s', f s = (s', none) → mustDecode s f = (s', none)) := by
  refine ⟨⟨rfl, rfl, rfl, rfl⟩, fun s' e h => ?_, fun s' h => ?_⟩
  · simp [mustDecode, h]
  · simp [mustDecode, h]

/-- Witness for C7: a failing and a succeeding decoder at a concrete
state. -/
theorem c7_must_decode_witness :
    mustDecode ⟨"/", false, 0, []⟩ (fun s => (s, some 3)) =
      (Stop (Code 400 ⟨"/", false, 0, []⟩), some 3) ∧
    mustDecode ⟨"/", false, 0, []⟩ (fun s => (s, none)) =
      (⟨"/", false, 0, []⟩, none) := by
  have h1 := (c7_must_decode (fun s => (s, some 3)) ⟨"/", false, 0, []⟩).2.1
    ⟨"/", false, 0, []⟩ 3 rfl
  have h2 := (c7_must_decode (fun s => (s, none)) ⟨"/", false, 0, []⟩).2.2
    ⟨"/", false, 0, []⟩ rfl
  exact ⟨h1, h2⟩

/-- Claim C6: the access logger configured (via `Keys` and `HeaderKeys`)
to emit method, URL and the header key `X-My-Header`, on a GET request
for `/a/b/c?x=y` carrying `X-My-Header: v1`, appends exactly one
INFO-level record with `method=GET`, `URL=/a/b/c?x=y` and
`header.X-My-Header=[v1]` to the log — before the continuation is
invoked (the continuation receives the state with the record already
written). -/
theorem c6_logger_record (nextF : GearR → GearR) (logs : List LogRecord) :
    loggerServe
      (some ⟨some [("method", true), ("URL", true), ("header", true)],
        ["X-My-Header"], none⟩)
      ⟨⟨"GET", "example.com", "/a/b/c?x=y", [("X-My-Header", ["v1"])]⟩, logs⟩ nextF =
    nextF ⟨⟨"GET", "example.com", "/a/b/c?x=y", [("X-My-Header", ["v1"])]⟩,
      logs ++ [⟨"INFO", "HTTP",
        [.str "method" "GET", .str "URL" "/a/b/c?x=y",
         .group "header" [.strs "X-My-Header" ["v1"]]]⟩]⟩ := rfl

/-! ### The 64-bit cursor: wraparound lemmas and the budget potential -/

/-- `wrap64` is the identity on values already in the int64 range. -/
theorem wrap64_eq_self {x : Int} (h1 : -9223372036854775808 ≤ x)
    (h2 : x < 9223372036854775808) : wrap64 x = x := by
  unfold wrap64
  omega

/-- Wrapping one step below MinInt64 lands on MaxInt64. -/
theorem wrap64_underflow :
    wrap64 (-9223372036854775808 - 1) = 9223372036854775807 := by
  unfold wrap64
  omega

/-- Prefix sums are monotone in the prefix length. -/
theorem sum_take_le (L : List Nat) {a b : Nat} (h : a ≤ b) :
    (L.take a).sum ≤ (L.take b).sum := by
  obtain ⟨c, rfl⟩ := Nat.exists_eq_add_of_le h
  rw [List.take_add, List.sum_append]
  exact Nat.le_add_right _ _

/-- The budget below the cursor is monotone in the cursor. -/
theorem preNexts_mono (mws : List Mw) {i j : Int} (h : i ≤ j) :
    preNexts mws i ≤ preNexts mws j := by
  unfold preNexts
  by_cases hi : i < 0
  · simp [hi]
  · rw [if_neg hi, if_neg (by omega)]
    exact sum_take_le _ (by omega)

/-- Splitting off the budget of the middleware at the cursor. -/
theorem preNexts_split {mws : List Mw} {i : Int} {m : Mw}
    (h0 : 0 ≤ i) (hm : idxGet mws i = some m) :
    preNexts mws i = totalNexts m + preNexts mws (i - 1) := by
  have hnot : ¬ i < 0 := by omega
  rw [idxGet, if_neg hnot] at hm
  have hmap : (mws.map totalNexts)[i.toNat]? = some (totalNexts m) := by
    rw [List.getElem?_map]
    rw [List.get?_eq_getElem?] at hm
    rw [hm]
    rfl
  have hsucc : (mws.map totalNexts).take (i.toNat + 1) =
      (mws.map totalNexts).take i.toNat ++ [totalNexts m] := by
    rw [List.take_succ, hmap]
    rfl
  by_cases h1 : i = 0
  · subst h1
    have hsum : (List.take 1 (mws.map totalNexts)).sum = totalNexts m := by
      simpa using congrArg List.sum hsucc
    simp [preNexts, hsum]
  · rw [preNexts, if_neg hnot, preNexts, if_neg (by omega : ¬ i - 1 < 0)]
    rw [hsucc, List.sum_append]
    have h2 : (i - 1).toNat + 1 = i.toNat := by omega
    rw [h2]
    simp [Nat.add_comm]

/-- At the top cursor position the budget below is the whole chain's. -/
theorem preNexts_all {mws : List Mw} (h : 0 < mws.length) :
    preNexts mws ((mws.length : Int) - 1) = sumNexts mws := by
  rw [preNexts, if_neg (by omega : ¬ (mws.length : Int) - 1 < 0)]
  have h1 : ((mws.length : Int) - 1).toNat + 1 = mws.length := by omega
  rw [h1]
  have h2 : (mws.map totalNexts).take mws.length = mws.map totalNexts := by
    simp
  rw [h2]
  rfl

/-- Weakening of the 64-bit outcome invariant. -/
theorem wOut_mono {mws : List Mw} {lo lo' hi hi' : Int} (h1 : lo' ≤ lo)
    (h2 : hi ≤ hi') : ∀ o, wOut mws lo hi o → wOut mws lo' hi' o
  | .ok _, h => ⟨le_trans h1 h.1, le_trans h.2 h2⟩
  | .panicked _ _, h => ⟨le_trans h1 h.1, le_trans h.2 h2⟩
  | .oob, h => h.elim
  | .fuelOut, _ => trivial

/-- Core safety invariant of the 64-bit engine: from a state whose cursor
is below the list length (nonnegative when entering `serveMiddlewares`)
and whose continuation-call budget keeps the potential above MinInt64, no
slice access is out of range, the cursor never increases, and the
potential never drops below `wrapLow` — however the middlewares call
their continuations. -/
theorem step64_wBound (hb : Option Nat) (mws : List Mw)
    (hlen : (mws.length : Int) ≤ 2^63) :
    ∀ fuel c s, s.i < (mws.length : Int) →
      (c = Callee.smw → 0 ≤ s.i) →
      -2^63 ≤ wrapLow mws c s →
      wOut mws (wrapLow mws c s) s.i (step64 hb mws fuel c s) := by
  intro fuel
  induction fuel with
  | zero => intro c s _ _ _; simp [step64, wOut]
  | succ n ih =>
    intro c s hilen hsmw hC
    cases c with
    | smw =>
      have h0 : 0 ≤ s.i := hsmw rfl
      obtain ⟨m0, hm0⟩ := idxGet_isSome h0 hilen
      have hsplit := preNexts_split h0 hm0
      have heq : wrapLow mws (.mw m0) s = wrapLow mws .smw s := by
        simp only [wrapLow, hsplit]
        push_cast
        ring
      simp only [step64, hm0]
      rw [← heq]
      exact ih (.mw m0) s hilen (by simp) (by rw [heq]; exact hC)
    | next =>
      simp only [step64]
      split
      next hst =>
        exact ⟨by simp only [wrapLow]; omega, le_refl _⟩
      next hst =>
        have hw : wrap64 (s.i - 1) = s.i - 1 := by
          apply wrap64_eq_self
          · simp only [wrapLow] at hC
            omega
          · omega
        rw [hw]
        split
        next hge =>
          have hio := ih .smw { s with i := s.i - 1 }
            (show s.i - 1 < (mws.length : Int) by omega)
            (fun _ => hge)
            (show -2^63 ≤ wrapLow mws .smw { s with i := s.i - 1 } from by
              simp only [wrapLow] at hC ⊢
              omega)
          refine wOut_mono ?_ ?_ _ hio
          · simp only [wrapLow]
            omega
          · show s.i - 1 ≤ s.i
            omega
        next hge =>
          have hmono := preNexts_mono mws (show s.i - 1 - 1 ≤ s.i - 1 by omega)
          cases hb <;>
            exact ⟨by simp only [wrapLow, runHandler, pushEvent]; omega,
                   by simp only [runHandler, pushEvent]; omega⟩
    | mw m0 =>
      cases m0 with
      | acts l =>
        simp only [step64]
        exact ih (.acts l) s hilen (by simp) hC
      | pathInterceptor pre' preSlash inner =>
        have hCi : -2^63 ≤ wrapLow mws (.mw inner) s := by
          simp only [wrapLow, totalNexts] at hC ⊢
          push_cast at hC ⊢
          omega
        simp only [step64]
        split
        next hp =>
          cases hin : step64 hb mws n (.mw inner) s with
          | ok s1 =>
            have h1 := ih (.mw inner) s hilen (by simp) hCi
            rw [hin] at h1
            have h1' := h1.1
            have h2 := ih .next s1 (lt_of_le_of_lt h1.2 hilen) (by simp)
              (show -2^63 ≤ wrapLow mws .next s1 from by
                simp only [wrapLow, totalNexts] at hC h1' ⊢
                push_cast at hC h1' ⊢
                omega)
            refine wOut_mono ?_ h1.2 _ h2
            simp only [wrapLow, totalNexts] at h1' ⊢
            push_cast at h1' ⊢
            omega
          | panicked s1 v =>
            have h1 := ih (.mw inner) s hilen (by simp) hCi
            rw [hin] at h1
            refine wOut_mono ?_ (le_refl _) _ h1
            simp only [wrapLow, totalNexts]
            push_cast
            omega
          | oob =>
            have h1 := ih (.mw inner) s hilen (by simp) hCi
            rw [hin] at h1
            exact h1.elim
          | fuelOut => trivial
        next hp =>
          have h2 := ih .next s hilen (by simp)
            (show -2^63 ≤ wrapLow mws .next s from by
              simp only [wrapLow, totalNexts] at hC ⊢
              push_cast at hC ⊢
              omega)
          refine wOut_mono ?_ (le_refl _) _ h2
          simp only [wrapLow, totalNexts]
          push_cast
          omega
      | panicRecovery addStack =>
        have hCn : -2^63 ≤ wrapLow mws .next s := by
          simp only [wrapLow, totalNexts] at hC ⊢
          omega
        simp only [step64]
        cases hin : step64 hb mws n .next s with
        | ok s1 =>
          have h1 := ih .next s hilen (by simp) hCn
          rw [hin] at h1
          refine wOut_mono ?_ (le_refl _) _ h1
          simp only [wrapLow, totalNexts]
          omega
        | panicked s1 v =>
          have h1 := ih .next s hilen (by simp) hCn
          rw [hin] at h1
          refine ⟨?_, ?_⟩
          · have h1' := h1.1
            simp only [wrapLow, totalNexts, Stop, Code, pushEvent] at h1' ⊢
            omega
          · have h1'' := h1.2
            simp only [Stop, Code, pushEvent]
            omega
        | oob =>
          have h1 := ih .next s hilen (by simp) hCn
          rw [hin] at h1
          exact h1.elim
        | fuelOut => trivial
    | acts l =>
      cases l with
      | nil =>
        simp only [step64]
        exact ⟨by simp only [wrapLow]; omega, le_refl _⟩
      | cons a rest =>
        cases a with
        | emit t =>
          simp only [step64]
          have h := ih (.acts rest) (pushEvent (.tag t) s) hilen (by simp)
            (show -2^63 ≤ wrapLow mws (.acts rest) (pushEvent (.tag t) s) from by
              simp only [wrapLow, countNexts, pushEvent] at hC ⊢
              push_cast at hC ⊢
              omega)
          refine wOut_mono ?_ ?_ _ h
          · simp only [wrapLow, countNexts, pushEvent]
            omega
          · simp [pushEvent]
        | stop =>
          simp only [step64]
          have h := ih (.acts rest) (Stop s) hilen (by simp)
            (show -2^63 ≤ wrapLow mws (.acts rest) (Stop s) from by
              simp only [wrapLow, countNexts, Stop] at hC ⊢
              push_cast at hC ⊢
              omega)
          refine wOut_mono ?_ ?_ _ h
          · simp only [wrapLow, countNexts, Stop]
            omega
          · simp [Stop]
        | doPanic v =>
          simp only [step64]
          exact ⟨by simp only [wrapLow]; omega, le_refl _⟩
        | callNext =>
          have hCn : -2^63 ≤ wrapLow mws .next s := by
            simp only [wrapLow, countNexts] at hC ⊢
            push_cast at hC ⊢
            omega
          simp only [step64]
          cases hin : step64 hb mws n .next s with
          | ok s1 =>
            have h1 := ih .next s hilen (by simp) hCn
            rw [hin] at h1
            have h1' := h1.1
            have h2 := ih (.acts rest) s1 (lt_of_le_of_lt h1.2 hilen) (by simp)
              (show -2^63 ≤ wrapLow mws (.acts rest) s1 from by
                simp only [wrapLow, countNexts] at hC h1' ⊢
                push_cast at hC h1' ⊢
                omega)
            refine wOut_mono ?_ h1.2 _ h2
            simp only [wrapLow, countNexts] at h1' ⊢
            push_cast at h1' ⊢
            omega
          | panicked s1 v =>
            have h1 := ih .next s hilen (by simp) hCn
            rw [hin] at h1
            refine wOut_mono ?_ (le_refl _) _ h1
            simp only [wrapLow, countNexts]
            push_cast
            omega
          | oob =>
            have h1 := ih .next s hilen (by simp) hCn
            rw [hin] at h1
            exact h1.elim
          | fuelOut => trivial

/-- Sequencing of one continuation call inside a function middleware body
(64-bit engine): when `next` returns normally, the remaining actions run
on the state it produced. -/
theorem step64_acts_callNext {hb : Option Nat} {mws : List Mw} {fuel : Nat}
    {rest : List MwAction} {s s1 : St}
    (h : step64 hb mws fuel .next s = .ok s1) :
    step64 hb mws (fuel+1) (.acts (.callNext :: rest)) s =
      step64 hb mws fuel (.acts rest) s1 := by
  simp only [step64]
  rw [h]

/-- A run of `k` continuation calls from a nonpositive cursor that stays
at or above MinInt64: each call decrements the cursor by exactly one (no
wrap yet) and, the cursor being negative, invokes the terminal handler. -/
theorem step64_acts_descend (mws : List Mw) (l2 : List MwAction) :
    ∀ k : Nat, ∀ (fuel : Nat) (s : St), s.stopped = false → s.i ≤ 0 →
      -9223372036854775808 ≤ s.i - k →
      k + 1 ≤ fuel →
      step64 none mws fuel (.acts (List.replicate k .callNext ++ l2)) s =
        step64 none mws (fuel - k) (.acts l2)
          { s with i := s.i - k, trace := s.trace ++ List.replicate k .handlerRun } := by
  intro k
  induction k with
  | zero =>
    intro fuel s h1 h2 h3 h4
    simp
  | succ k ih =>
    intro fuel s h1 h2 h3 h4
    obtain ⟨g, rfl⟩ : ∃ g, fuel = g + 1 := ⟨fuel - 1, by omega⟩
    rw [List.replicate_succ, List.cons_append]
    have hw : wrap64 (s.i - 1) = s.i - 1 :=
      wrap64_eq_self (by push_cast at h3; omega) (by omega)
    have hlt : ¬ (0:Int) ≤ s.i - 1 := by omega
    obtain ⟨g', rfl⟩ : ∃ g', g = g' + 1 := ⟨g - 1, by omega⟩
    have hnext : step64 none mws (g' + 1) Callee.next s =
        .ok (pushEvent .handlerRun { s with i := s.i - 1 }) := by
      simp only [step64]
      rw [hw]
      simp [h1, hlt, runHandler]
    rw [step64_acts_callNext hnext]
    have hih := ih (g' + 1) (pushEvent .handlerRun { s with i := s.i - 1 })
      (by simp [pushEvent, h1]) (by simp [pushEvent]; omega)
      (by simp only [pushEvent]; push_cast at h3 ⊢; omega) (by omega)
    rw [hih]
    rw [show g' + 1 + 1 - (k + 1) = g' + 1 - k by omega]
    congr 1
    simp only [pushEvent, St.mk.injEq]
    exact ⟨trivial, trivial, by push_cast; ring,
      by simp [List.replicate_succ, List.append_assoc]⟩

/-- Single-step unfolding of `serveMiddlewares` in the 64-bit engine. -/
theorem step64_smw_eq (hb : Option Nat) (mws : List Mw) (fuel : Nat) (s : St)
    (m0 : Mw) (h : idxGet mws s.i = some m0) :
    step64 hb mws (fuel+1) .smw s = step64 hb mws fuel (.mw m0) s := by
  simp only [step64, h]

/-- Single-step unfolding of a function middleware's `Serve` call. -/
theorem step64_mw_acts {hb : Option Nat} {mws : List Mw} {fuel : Nat}
    {l : List MwAction} {s : St} :
    step64 hb mws (fuel+1) (.mw (.acts l)) s = step64 hb mws fuel (.acts l) s := by
  simp only [step64]

/-- Single-step unfolding of a continuation call in a middleware body. -/
theorem step64_acts_seq {hb : Option Nat} {mws : List Mw} {fuel : Nat}
    {rest : List MwAction} {s : St} :
    step64 hb mws (fuel+1) (.acts (.callNext :: rest)) s =
      match step64 hb mws fuel .next s with
      | .ok s1 => step64 hb mws fuel (.acts rest) s1
      | o => o := by
  simp only [step64]

/-- Claim C9 counterexample: the cursor is a wrapping 64-bit integer, so
a middleware that calls its continuation `2^63 + 1` times drives the
cursor from 0 down to MinInt64; the next decrement wraps to MaxInt64,
which passes the `m.i >= 0` check, and `serveMiddlewares` accesses
`middlewares[MaxInt64]` — out of range for the one-element list.  So an
out-of-range access is reachable, refuting the claim that continuation
reuse never causes one. -/
theorem c9_wrap_counterexample :
    exec64 none overflowChain (2^63 + 8) (initSt "/" overflowChain) =
      Outcome.oob := by
  have hwrap : wrap64 (-9223372036854775809) = 9223372036854775807 := by
    unfold wrap64
    omega
  have hidx1 : idxGet overflowChain 9223372036854775807 = none := by
    rw [idxGet, if_neg (by omega : ¬ ((9223372036854775807:Int) < 0))]
    refine List.get?_eq_none.mpr ?_
    have ht : ((9223372036854775807:Int)).toNat = 9223372036854775807 := by omega
    rw [ht, show overflowChain.length = 1 from rfl]
    omega
  have hnext2 : ∀ g : Nat, step64 none overflowChain (g+1+1) .next
      { path := "/", stopped := false, i := (0:Int) - ((2^63:Nat):Int),
        trace := List.replicate (2^63) .handlerRun } = Outcome.oob := by
    intro g
    simp [step64, hwrap, hidx1]
  suffices h : ∀ f : Nat,
      step64 none overflowChain (f + (2^63 + 6))
        (.acts (List.replicate (2^63) .callNext ++ [.callNext]))
        { path := "/", stopped := false, i := 0, trace := [] } = Outcome.oob by
    have hidx0 : idxGet overflowChain 0 =
        some (.acts (List.replicate (2^63) .callNext ++ [.callNext])) := rfl
    have h2 : exec64 none overflowChain (2^63 + 8) (initSt "/" overflowChain) =
        step64 none overflowChain (2^63 + 8) .smw
          { path := "/", stopped := false, i := 0, trace := [] } := by
      have hemp : overflowChain.isEmpty = false := rfl
      have hlen1 : overflowChain.length = 1 := rfl
      simp [exec64, initSt, newMwExecI, hemp, hlen1]
    rw [h2, show (2^63 + 8 : Nat) = ((0 + (2^63 + 6)) + 1) + 1 by omega]
    rw [step64_smw_eq none overflowChain ((0 + (2^63 + 6)) + 1)
      { path := "/", stopped := false, i := 0, trace := [] } _ hidx0]
    rw [step64_mw_acts]
    exact h 0
  intro f
  have hdesc := step64_acts_descend overflowChain [.callNext] (2^63) (f + (2^63 + 6))
    { path := "/", stopped := false, i := 0, trace := [] }
    rfl (le_refl 0)
    (show (-9223372036854775808:Int) ≤ 0 - ((2^63:Nat):Int) by norm_num)
    (by omega)
  have hdesc2 : step64 none overflowChain (f + (2^63 + 6))
      (.acts (List.replicate (2^63) .callNext ++ [.callNext]))
      { path := "/", stopped := false, i := 0, trace := [] } =
    step64 none overflowChain (((f+3)+1+1)+1) (.acts [.callNext])
      { path := "/", stopped := false, i := (0:Int) - ((2^63:Nat):Int),
        trace := List.replicate (2^63) .handlerRun } := by
    rw [hdesc, show f + (2^63 + 6) - 2^63 = ((f+3)+1+1)+1 by omega]
    congr 1
  rw [hdesc2, step64_acts_seq, hnext2 (f+3)]

/-- Claim C9 (amended): every access `middlewares[i]` performed by
`serveMiddlewares` is within the bounds of the list — for every
middleware behaviour, including continuations called zero, one, or
multiple times, any fuel, handler behaviour, initial stopped flag and
trace — provided the cursor cannot underflow MinInt64: the list length
is at most 2^63 and the chain's total continuation-call budget keeps
`len - 1 - budget` at or above MinInt64.  (Without that bound the 64-bit
cursor wraps and an out-of-range access is reachable; see the
counterexample.) -/
theorem c9_no_oob_within_int64 (hb : Option Nat) (mws : List Mw)
    (fuel : Nat) (path : String) (stopped0 : Bool) (trace0 : List Event)
    (hlen : (mws.length : Int) ≤ 2^63)
    (hbudget : -2^63 ≤ (mws.length : Int) - 1 - sumNexts mws) :
    exec64 hb mws fuel
      { path := path, stopped := stopped0, i := newMwExecI mws, trace := trace0 } ≠
      Outcome.oob := by
  unfold exec64
  split
  · simp
  next hst =>
    split
    next hemp => cases hb <;> simp [runHandler]
    next hemp =>
      have hlen0 : 0 < mws.length := by
        cases mws with
        | nil => simp at hemp
        | cons a l => simp
      have hi0 : newMwExecI mws = (mws.length : Int) - 1 := by
        simp only [newMwExecI, if_pos hlen0]
      have hC : -2^63 ≤ wrapLow mws .smw
          { path := path, stopped := stopped0, i := newMwExecI mws, trace := trace0 } := by
        simp only [wrapLow, hi0, preNexts_all hlen0]
        exact hbudget
      have h := step64_wBound hb mws hlen fuel .smw
        { path := path, stopped := stopped0, i := newMwExecI mws, trace := trace0 }
        (show newMwExecI mws < (mws.length : Int) by rw [hi0]; omega)
        (fun _ => show (0:Int) ≤ newMwExecI mws by rw [hi0]; omega)
        hC
      intro hoob
      rw [hoob] at h
      exact h

/-- Witness for the amended C9: a one-middleware chain with three
continuation calls, comfortably within the int64 budget. -/
theorem c9_no_oob_within_int64_witness :
    exec64 none [.acts [.callNext, .callNext, .callNext]] 30
      { path := "/", stopped := false,
        i := newMwExecI [.acts [.callNext, .callNext, .callNext]], trace := [] } ≠
      Outcome.oob :=
  c9_no_oob_within_int64 none [.acts [.callNext, .callNext, .callNext]] 30 "/" false []
    (by norm_num) (by norm_num [sumNexts, totalNexts, countNexts])
